import Mathlib

/-!
Verification of the two-state hidden semi-Markov (explicit-duration) HMM engine
from `mmHMM/common/TwoStateHDHMM.cpp` and its downstream segment pipeline from
`mmHMM/hmm/cthmm.cpp`.

Embedding conventions:

* The C++ code computes in log space with `double`s, combining alternatives with
  the numerically stable `log_sum_log` primitive (treating the value `0.0` as the
  sentinel for log of zero).  We embed every log-space quantity by its
  exponential, as an exact rational: a stored log-value `x` is modelled by the
  number `exp x`.  Under this reading `log_sum_log a b` becomes `+`, addition of
  log-likelihoods becomes `*`, `log p` becomes `p`, the `0.0` fill / sentinel
  becomes `0`, and the subtraction of prefix-cache entries becomes division.
  The map is faithful because `log`/`exp` are mutually inverse bijections
  between positive reals and reals; floating-point rounding is abstracted away
  (exact arithmetic), which is the standard shallow embedding of `double`.
* Arrays indexed by positions become functions `ℕ → ℚ`; the class member state
  of `TwoStateHDHMM` becomes explicit records; the member mutation of each
  method becomes a record update.
* A run of `forward_algorithm`/`backward_algorithm`/`estimate_state_posterior`
  on the subsequence `[start, end)` is modelled in coordinates relative to
  `start`: relative position `k` is absolute position `start + k`, and
  `N = end - start` is the subsequence length.  The backward table is indexed
  by the distance `t` from the last position, so `bwF t` models
  `backward[end - 1 - t].first`.
-/

namespace MmHMM

/-- Context of one forward/backward/posterior pass over a subsequence,
mirroring the members of `TwoStateHDHMM` that those methods read:
`F a b` models `exp (fg_segment_log_likelihood (start + a, start + b))`,
`G` likewise for `bg_segment_log_likelihood`, `d l` models
`exp (fg_duration.log_likelihood l)`, `p` models
`bg_duration.get_params().front()` (so the code's `self_lp` is `1 - p` and
`switch_lp` is `p` here), and `sf sb ft bt` model
`exp lp_sf, exp lp_sb, exp lp_ft, exp lp_bt`.  `M` is `MAX_LEN`. -/
structure Ctx where
  F : ℕ → ℕ → ℚ
  G : ℕ → ℕ → ℚ
  d : ℕ → ℚ
  p : ℚ
  sf : ℚ
  sb : ℚ
  ft : ℚ
  bt : ℚ
  M : ℕ

/-- Index set of the inner segment-length loop of `forward_algorithm` at
relative position `i = k + 1`: the source loop is
`for (l = 1; l < min(i - start + 1, MAX_LEN) + 1; ++l)`, re-indexed by
`j = l - 1`. -/
def fwdLenRange (k M : ℕ) : Finset ℕ := Finset.range (min (k + 2) M)

/-- Forward table of `TwoStateHDHMM::forward_algorithm` in relative
coordinates.  `fwdT c k i` is the table entry at relative position `i` after
the fill loop has reached position `k`; the table is filled left to right, so
entries at `i ≤ k` are stable afterwards.  Entry `.1` models
`exp forward[start + i].first` (a foreground segment ends at `i`), entry `.2`
models `exp forward[start + i].second` (position `i` is background).
The base case is the source's initialisation of `forward[start]`; the step is
the source's loop body at `i = k + 1`, with segment `[beginning, ending) =
[k + 1 - j, k + 2)` of length `l = j + 1` entered from the sequence start
(weight `sf`, when `beginning == start`, i.e. `j = k + 1`) or from background
at `beginning - 1` (weight `forward[beginning - 1].second * p`). -/
def fwdT (c : Ctx) : ℕ → ℕ → ℚ × ℚ
  | 0, _ => (c.sf * c.F 0 1 * c.d 1, c.sb * c.G 0 1)
  | k + 1, i =>
    if i ≤ k then fwdT c k i
    else
      (∑ j in fwdLenRange k c.M,
        (if j = k + 1 then c.sf else (fwdT c k (k - j)).2 * c.p) *
          c.F (k + 1 - j) (k + 2) * c.d (j + 1),
       ((fwdT c k k).1 + (fwdT c k k).2 * (1 - c.p)) * c.G (k + 1) (k + 2))

/-- Final value of `forward[start + k].first`. -/
def fgF (c : Ctx) (k : ℕ) : ℚ := (fwdT c k k).1

/-- Final value of `forward[start + k].second`. -/
def bgF (c : Ctx) (k : ℕ) : ℚ := (fwdT c k k).2

/-- Return value of `forward_algorithm` on a subsequence of length `N`:
`log_sum_log (forward[end-1].first + lp_ft, forward[end-1].second + lp_bt)`. -/
def fwdTotal (c : Ctx) (N : ℕ) : ℚ := fgF c (N - 1) * c.ft + bgF c (N - 1) * c.bt

/-- Index set of the segment-length loop of `backward_algorithm` at distance
`t + 1` from the last position: the source loop is
`for (l = 1; l < min(end - i - 1, MAX_LEN) + 1; ++l)` with
`end - i - 1 = t + 1`, re-indexed by `j = l - 1`. -/
def bwdLenRange (t M : ℕ) : Finset ℕ := Finset.range (min (t + 1) M)

/-- Backward table of `TwoStateHDHMM::backward_algorithm`, indexed by the
distance `t` from the last position of the subsequence `[start, end)` of
length `N`: `bwT c N t u` is (for `u ≤ t`) the entry for absolute position
`end - 1 - u`, after the fill loop has reached distance `t`.  Entry `.1`
models `exp backward[end - 1 - u].first` (continuation given a foreground
segment ends here), entry `.2` models `exp backward[end - 1 - u].second`
(continuation given this position is background).  The base case is the
initialisation of `backward[end - 1]`; the step at distance `t + 1` is the
loop body at `i = end - 2 - t` (so `i + 1 = N - 1 - t` and `i + 2 = N - t`
in relative coordinates), whose candidate foreground segment of length
`l = j + 1` is `[i + 1, i + l + 1)` with far-end backward value
`backward[i + l].first`, at distance `t - j`. -/
def bwT (c : Ctx) (N : ℕ) : ℕ → ℕ → ℚ × ℚ
  | 0, _ => (c.ft, c.bt)
  | t + 1, u =>
    if u ≤ t then bwT c N t u
    else
      (c.G (N - 1 - t) (N - t) * (bwT c N t t).2,
       (1 - c.p) * c.G (N - 1 - t) (N - t) * (bwT c N t t).2 +
         ∑ j in bwdLenRange t c.M,
           c.p * c.F (N - 1 - t) (N - t + j) * c.d (j + 1) * (bwT c N t (t - j)).1)

/-- Final value of `backward[end - 1 - t].first`. -/
def bwF (c : Ctx) (N t : ℕ) : ℚ := (bwT c N t t).1

/-- Final value of `backward[end - 1 - t].second`. -/
def bwB (c : Ctx) (N t : ℕ) : ℚ := (bwT c N t t).2

/-- Return value of `backward_algorithm` on a subsequence of length `N`: the
whole likelihood, combining the first-segment-is-background case with the
first-segment-is-foreground case for every length `l = j + 1` up to
`min(end - start, MAX_LEN)` (the source loop
`for (l = 1; l < min(end - start, MAX_LEN) + 1; ++l)`), where the
foreground segment `[start, start + l)` has far-end backward value
`backward[start + l - 1].first`, at distance `N - 1 - j`. -/
def bwdTotal (c : Ctx) (N : ℕ) : ℚ :=
  c.sb * c.G 0 1 * bwB c N (N - 1) +
    ∑ j in Finset.range (min N c.M),
      c.sf * c.F 0 (j + 1) * c.d (j + 1) * bwF c N (N - 1 - j)

/-- Weight with which a foreground segment starting at relative position `b`
is entered, shared by the forward pass and the posterior estimator: the
start-in-foreground prior when `b` is the first position of the subsequence,
otherwise the background value at `b - 1` times the switch probability. -/
def entry (c : Ctx) (b : ℕ) : ℚ := if b = 0 then c.sf else bgF c (b - 1) * c.p

/-- Index set of the inner loop of `estimate_state_posterior` for segment
start `s`, seen from the receiving cell `i`: the source loop
`for (e = min(s + MAX_LEN, end); e > s; --e)` adds the running suffix
accumulator into cell `e - 1`, so cell `i` receives the evidence of every
segment end `e` with `i + 1 ≤ e ≤ min(s + MAX_LEN, end)`. -/
def evEndRange (M N i s : ℕ) : Finset ℕ := Finset.Icc (i + 1) (min (s + M) N)

/-- Value of `fg_evidence[i]` accumulated by
`TwoStateHDHMM::estimate_state_posterior` on a subsequence of length `N`, in
relative coordinates.  For each segment start `s` the source accumulates
`accu_evidence`, the log-sum of `evidence(s, e)` over ends `e` from
`min(s + MAX_LEN, end)` down to the current one, and adds it into
`fg_evidence[e - 1]`; hence cell `i` receives, over all starts `s ≤ i`, the
sum of `evidence(s, e)` over `e ∈ [i + 1, min(s + MAX_LEN, end)]`, where
`evidence(s, e)` is entry weight times duration density `d (e - s)` times
segment likelihood `F s e` times the far-end backward value
`backward[e - 1].first` (distance `N - e`). -/
def fg_evidence (c : Ctx) (N i : ℕ) : ℚ :=
  ∑ s in Finset.range (i + 1), ∑ e in evEndRange c.M N i s,
    entry c s * c.d (e - s) * c.F s e * bwF c N (N - e)

/-- Value of `bg_evidence[i]` from `estimate_state_posterior`:
`forward[s].second + backward[s].second` in log space. -/
def bg_evidence (c : Ctx) (N i : ℕ) : ℚ := bgF c i * bwB c N (N - 1 - i)

/-- Value of `fg_posteriors[i]` set by `estimate_state_posterior`:
`exp (fg_evidence[i] - log_sum_log (fg_evidence[i], bg_evidence[i]))`. -/
def fg_posterior (c : Ctx) (N i : ℕ) : ℚ :=
  fg_evidence c N i / (fg_evidence c N i + bg_evidence c N i)

/-- Value of `bg_posteriors[i]` set by `estimate_state_posterior`. -/
def bg_posterior (c : Ctx) (N i : ℕ) : ℚ :=
  bg_evidence c N i / (fg_evidence c N i + bg_evidence c N i)

/-- Part of the foreground evidence at position `i` coming from segments that
extend strictly past `i`. -/
def fgEvPast (c : Ctx) (N i : ℕ) : ℚ :=
  ∑ s in Finset.range (i + 1), ∑ e in Finset.Icc (i + 2) (min (s + c.M) N),
    entry c s * c.d (e - s) * c.F s e * bwF c N (N - e)

/-- Prefix likelihood cache built by
`TwoStateHDHMM::update_observation_likelihood` from a per-position emission
likelihood `f`: in log space `cache[i] = cache[i-1] + log f(obs i)`, so
multiplicatively `cache f i` is the product of `f` over positions `0..i`. -/
def cache (f : ℕ → ℚ) : ℕ → ℚ
  | 0 => f 0
  | i + 1 => cache f i * f (i + 1)

/-- Segment likelihood lookup of `TwoStateHDHMM::fg_segment_log_likelihood` /
`bg_segment_log_likelihood`: `L[end-1] - L[start-1]` in log space, with the
`start == 0` special case, becomes a quotient of cache entries. -/
def segment_likelihood (L : ℕ → ℚ) (a b : ℕ) : ℚ :=
  if a = 0 then L (b - 1) else L (b - 1) / L (a - 1)

/-- Context of a pass over the subsequence `[s, s + N)` given the class's
cache arrays `fgLL`/`bgLL`, foreground duration density `dur`, background
switch parameter `p`, and start/termination parameters. -/
def subCtx (fgLL bgLL dur : ℕ → ℚ) (p sf sb ft bt : ℚ) (M s : ℕ) : Ctx where
  F := fun a b => segment_likelihood fgLL (s + a) (s + b)
  G := fun a b => segment_likelihood bgLL (s + a) (s + b)
  d := dur
  p := p
  sf := sf
  sb := sb
  ft := ft
  bt := bt
  M := M

/-- Return value of `TwoStateHDHMM::forward_algorithm(s, e)`. -/
def forward_algorithm (fgLL bgLL dur : ℕ → ℚ) (p sf sb ft bt : ℚ)
    (M s e : ℕ) : ℚ :=
  fwdTotal (subCtx fgLL bgLL dur p sf sb ft bt M s) (e - s)

/-- Return value of `TwoStateHDHMM::backward_algorithm(s, e)`. -/
def backward_algorithm (fgLL bgLL dur : ℕ → ℚ) (p sf sb ft bt : ℚ)
    (M s e : ℕ) : ℚ :=
  bwdTotal (subCtx fgLL bgLL dur p sf sb ft bt M s) (e - s)

/-- Modelled from the spec: the claimed foreground evidence that counts only
the segments having `i` as their last position — the log-sum over foreground
segments of length `l ≤ MAX_LEN` ending exactly at `i` (entered from the
start-in-foreground prior or from a background predecessor via the switch
probability) of entry weight, duration density, segment likelihood and the
backward value at the segment's far end. -/
def fg_evidence_last_pos (c : Ctx) (N i : ℕ) : ℚ :=
  ∑ l in Finset.Icc 1 (min (i + 1) c.M),
    entry c (i + 1 - l) * c.d l * c.F (i + 1 - l) (i + 1) * bwF c N (N - 1 - i)

/-- Sum of the evidence of explicit `(start, length)` foreground segment pairs
of length at most `MAX_LEN` containing position `i`. -/
def fg_evidence_segments (c : Ctx) (N i : ℕ) : ℚ :=
  ∑ x in (Finset.range N ×ˢ Finset.Icc 1 c.M).filter
      (fun x => x.1 ≤ i ∧ i < x.1 + x.2 ∧ x.1 + x.2 ≤ N),
    entry c x.1 * c.d x.2 * c.F x.1 (x.1 + x.2) * bwF c N (N - (x.1 + x.2))

/-- Concrete context used to evaluate the engine on a two-position
subsequence: all likelihoods, durations and start/termination parameters are
`1`, the switch parameter is `1`, `MAX_LEN = 2`. -/
def cEx : Ctx where
  F := fun _ _ => 1
  G := fun _ _ => 1
  d := fun _ => 1
  p := 1
  sf := 1
  sb := 1
  ft := 1
  bt := 1
  M := 2

/-- Capabilities of the external emission (`betabin`) and duration (`Distro`)
families, which are out of scope of the engine (spec section 6): emission
log-likelihood per observation, emission `fit`, duration
`estimate_params_ml`, duration `log_likelihood`, and the first duration
parameter `get_params().front()` used as the background switch probability.
All log-space values are embedded multiplicatively as elsewhere. -/
structure Caps (E D : Type) where
  elik : E → ℚ × ℚ → ℚ
  efit : (ℕ → ℚ) → (ℕ → ℚ) → (ℕ → ℚ) → E → E
  dml : List ℚ → D → D
  dlik : D → ℕ → ℚ
  p0 : D → ℚ

/-- Mutable member state of a `TwoStateHDHMM` object (the observation array
and reset points are fixed at construction and passed separately).  The
`lp_*` fields hold the exponentials of the source's log-probabilities. -/
structure HMM (E D : Type) where
  fg_emission : E
  bg_emission : E
  fg_duration : D
  bg_duration : D
  lp_sf : ℚ
  lp_sb : ℚ
  lp_ft : ℚ
  lp_bt : ℚ
  fg_log_likelihood : ℕ → ℚ
  bg_log_likelihood : ℕ → ℚ
  fg_posteriors : ℕ → ℚ
  bg_posteriors : ℕ → ℚ

/-- Constructor-computed `meth_lp[i] = log (clamp (m/(m+u), 1e-2, 1-1e-2))`,
multiplicatively. -/
def meth_lp (obs : ℕ → ℚ × ℚ) (i : ℕ) : ℚ :=
  min (max ((obs i).1 / ((obs i).1 + (obs i).2)) (1 / 100)) (1 - 1 / 100)

/-- Constructor-computed `unmeth_lp[i]`. -/
def unmeth_lp (obs : ℕ → ℚ × ℚ) (i : ℕ) : ℚ :=
  min (max ((obs i).2 / ((obs i).1 + (obs i).2)) (1 / 100)) (1 - 1 / 100)

variable {E D : Type}

/-- Method `TwoStateHDHMM::update_observation_likelihood`: rebuilds both
prefix likelihood caches from the current emission models. -/
def update_observation_likelihood (caps : Caps E D) (obs : ℕ → ℚ × ℚ)
    (m : HMM E D) : HMM E D :=
  { m with
    fg_log_likelihood := cache fun i => caps.elik m.fg_emission (obs i)
    bg_log_likelihood := cache fun i => caps.elik m.bg_emission (obs i)
    }

/-- Method `TwoStateHDHMM::set_parameters`: installs the four models, rebuilds
the caches, and unconditionally sets `lp_sf = lp_sb = log 0.5` and
`lp_ft = lp_bt = log 1e-10` (multiplicatively `1/2` and `1/10^10`). -/
def set_parameters (caps : Caps E D) (obs : ℕ → ℚ × ℚ) (m : HMM E D)
    (fe be : E) (fd bd : D) : HMM E D :=
  let m1 := update_observation_likelihood caps obs
    { m with fg_emission := fe, bg_emission := be,
             fg_duration := fd, bg_duration := bd }
  { m1 with lp_sf := 1 / 2, lp_sb := 1 / 2,
            lp_ft := 1 / 10 ^ 10, lp_bt := 1 / 10 ^ 10 }

/-- Subsequence context read by the pass methods from the member state. -/
def mkCtx (caps : Caps E D) (M : ℕ) (m : HMM E D) (s : ℕ) : Ctx where
  F := fun a b => segment_likelihood m.fg_log_likelihood (s + a) (s + b)
  G := fun a b => segment_likelihood m.bg_log_likelihood (s + a) (s + b)
  d := caps.dlik m.fg_duration
  p := caps.p0 m.bg_duration
  sf := m.lp_sf
  sb := m.lp_sb
  ft := m.lp_ft
  bt := m.lp_bt
  M := M

/-- Method `TwoStateHDHMM::estimate_state_posterior(s, e)`: overwrites the
posterior arrays on `[s, e)` with the normalized evidence. -/
def estimate_state_posterior (caps : Caps E D) (M : ℕ) (m : HMM E D)
    (s e : ℕ) : HMM E D :=
  { m with
    fg_posteriors := fun i =>
      if s ≤ i ∧ i < e then fg_posterior (mkCtx caps M m s) (e - s) (i - s)
      else m.fg_posteriors i
    bg_posteriors := fun i =>
      if s ≤ i ∧ i < e then bg_posterior (mkCtx caps M m s) (e - s) (i - s)
      else m.bg_posteriors i }

/-- State of the hard run-length walk in `estimate_parameters`. -/
structure RunState where
  prev : Bool
  len : ℚ
  fg : List ℚ
  bg : List ℚ

/-- Run-length collection of `estimate_parameters` over one reset interval
`[s, e)`: walk positions left to right, comparing posteriors to assign a hard
label (`FG_STATE = true` iff `fg_posteriors[i] > bg_posteriors[i]`), and push
each completed run's length; the final run is never pushed (the source pushes
only on a label change). -/
def run_lengths_interval (fgP bgP : ℕ → ℚ) (s e : ℕ) : List ℚ × List ℚ :=
  let r := (List.range (e - (s + 1))).foldl
    (fun (st : RunState) j =>
      let i := s + 1 + j
      let state := decide (bgP i < fgP i)
      if state = st.prev then { st with len := st.len + 1 }
      else if st.prev then
        { prev := state, len := 1, fg := st.fg ++ [st.len], bg := st.bg }
      else
        { prev := state, len := 1, fg := st.fg, bg := st.bg ++ [st.len] })
    ({ prev := decide (bgP s < fgP s), len := 1, fg := [], bg := [] } : RunState)
  (r.fg, r.bg)

/-- Run-length collection across all reset intervals. -/
def run_lengths (resets : List ℕ) (fgP bgP : ℕ → ℚ) : List ℚ × List ℚ :=
  (List.range (resets.length - 1)).foldl
    (fun acc idx =>
      let r := run_lengths_interval fgP bgP (resets.getD idx 0)
        (resets.getD (idx + 1) 0)
      (acc.1 ++ r.1, acc.2 ++ r.2))
    ([], [])

/-- Method `TwoStateHDHMM::estimate_parameters` (the M-step): refit both
emissions from the posteriors, rebuild the caches, then refit each duration
model from its hard run-length sample unless the sample is empty. -/
def estimate_parameters (caps : Caps E D) (obs : ℕ → ℚ × ℚ)
    (resets : List ℕ) (m : HMM E D) : HMM E D :=
  let m1 := update_observation_likelihood caps obs
    { m with
      fg_emission :=
        caps.efit (meth_lp obs) (unmeth_lp obs) m.fg_posteriors m.fg_emission
      bg_emission :=
        caps.efit (meth_lp obs) (unmeth_lp obs) m.bg_posteriors m.bg_emission }
  let lens := run_lengths resets m.fg_posteriors m.bg_posteriors
  let m2 :=
    if lens.1 ≠ [] then { m1 with fg_duration := caps.dml lens.1 m1.fg_duration }
    else m1
  if lens.2 ≠ [] then { m2 with bg_duration := caps.dml lens.2 m2.bg_duration }
  else m2

/-- Per-subsequence body shared by `single_iteration` and
`PosteriorDecoding`: run the forward recursion (whose total is accumulated
into the score) and refresh the posteriors of the subsequence. -/
def decode_step (caps : Caps E D) (M : ℕ) (resets : List ℕ)
    (acc : HMM E D × ℚ) (idx : ℕ) : HMM E D × ℚ :=
  let s := resets.getD idx 0
  let e := resets.getD (idx + 1) 0
  (estimate_state_posterior caps M acc.1 s e,
    acc.2 + fwdTotal (mkCtx caps M acc.1 s) (e - s))

/-- Method `TwoStateHDHMM::single_iteration`: forward/backward/posterior over
every reset interval, accumulating the total forward score, followed by the
M-step. -/
def single_iteration (caps : Caps E D) (obs : ℕ → ℚ × ℚ) (M : ℕ)
    (resets : List ℕ) (m : HMM E D) : HMM E D × ℚ :=
  let r := (List.range (resets.length - 1)).foldl (decode_step caps M resets) (m, 0)
  (estimate_parameters caps obs resets r.1, r.2)

/-- Method `TwoStateHDHMM::PosteriorDecoding`: the same per-subsequence passes
without the M-step. -/
def PosteriorDecoding (caps : Caps E D) (M : ℕ) (resets : List ℕ)
    (m : HMM E D) : HMM E D × ℚ :=
  (List.range (resets.length - 1)).foldl (decode_step caps M resets) (m, 0)

/-- Largest finite `double`, `std::numeric_limits<double>::max()`:
`(2 - 2^-52) * 2^1023`. -/
def dblMax : ℚ := 2 ^ 1024 - 2 ^ 971

/-- Smallest positive normalized `double`,
`std::numeric_limits<double>::min()`: `2^-1022`. -/
def dblMin : ℚ := 1 / 2 ^ 1022

/-- Rollback performed by `BaumWelchTraining` when the convergence test
fires: the emission and duration models are restored from the saved
pre-iteration copies and the caches are rebuilt; everything else (notably the
posteriors) keeps the converged-into iteration's values. -/
def restore_parameters (caps : Caps E D) (obs : ℕ → ℚ × ℚ)
    (old mNew : HMM E D) : HMM E D :=
  update_observation_likelihood caps obs
    { mNew with
      fg_emission := old.fg_emission, bg_emission := old.bg_emission,
      fg_duration := old.fg_duration, bg_duration := old.bg_duration }

/-- Iteration loop of `TwoStateHDHMM::BaumWelchTraining`, carrying
`(current machine, prev_total)` through the remaining iteration budget: each
iteration saves the old parameters, runs `single_iteration`, and on
`(total - prev_total) / |total| < tolerance` restores the old parameters and
breaks, returning `prev_total`; otherwise `prev_total := total`. -/
def bwLoop (caps : Caps E D) (obs : ℕ → ℚ × ℚ) (M : ℕ) (resets : List ℕ)
    (tol : ℚ) : ℕ → HMM E D × ℚ → HMM E D × ℚ
  | 0, st => st
  | n + 1, st =>
    let r := single_iteration caps obs M resets st.1
    if (r.2 - st.2) / |r.2| < tol then
      (restore_parameters caps obs st.1 r.1, st.2)
    else bwLoop caps obs M resets tol n (r.1, r.2)

/-- Method `TwoStateHDHMM::BaumWelchTraining`: the loop starts from
`prev_total = -std::numeric_limits<double>::max()` and runs at most
`max_iterations` iterations. -/
def BaumWelchTraining (caps : Caps E D) (obs : ℕ → ℚ × ℚ) (M : ℕ)
    (resets : List ℕ) (tol : ℚ) (maxItr : ℕ) (m : HMM E D) : HMM E D × ℚ :=
  bwLoop caps obs M resets tol maxItr (m, -dblMax)

/-- Decidable trace predicate: the convergence test fails at every one of the
next `n` iterations starting from state `st`. -/
def noConvB (caps : Caps E D) (obs : ℕ → ℚ × ℚ) (M : ℕ) (resets : List ℕ)
    (tol : ℚ) : ℕ → HMM E D × ℚ → Bool
  | 0, _ => true
  | n + 1, st =>
    let r := single_iteration caps obs M resets st.1
    !(decide ((r.2 - st.2) / |r.2| < tol)) &&
      noConvB caps obs M resets tol n (r.1, r.2)

/-- Plain n-fold iteration of `single_iteration` with no convergence test and
no rollback. -/
def plainIter (caps : Caps E D) (obs : ℕ → ℚ × ℚ) (M : ℕ)
    (resets : List ℕ) : ℕ → HMM E D × ℚ → HMM E D × ℚ
  | 0, st => st
  | n + 1, st => plainIter caps obs M resets n (single_iteration caps obs M resets st.1)

/-- Two machine states share the same start and termination parameters. -/
def sameStartTerm (a b : HMM E D) : Prop :=
  a.lp_sf = b.lp_sf ∧ a.lp_sb = b.lp_sb ∧ a.lp_ft = b.lp_ft ∧ a.lp_bt = b.lp_bt

/-- Concrete capabilities over `E = D = ℚ` used to exercise the trainer. -/
def caps0 : Caps ℚ ℚ where
  elik := fun _ _ => 1
  efit := fun _ _ _ e => e + 1
  dml := fun _ dd => dd + 1
  dlik := fun _ _ => 1
  p0 := fun _ => 1

/-- Concrete observations. -/
def obs0 : ℕ → ℚ × ℚ := fun _ => (1, 1)

/-- Concrete reset points: one subsequence `[0, 1)`. -/
def res0 : List ℕ := [0, 1]

/-- Concrete machine state. -/
def m0 : HMM ℚ ℚ where
  fg_emission := 0
  bg_emission := 0
  fg_duration := 0
  bg_duration := 0
  lp_sf := 1
  lp_sb := 1
  lp_ft := 1
  lp_bt := 1
  fg_log_likelihood := fun _ => 1
  bg_log_likelihood := fun _ => 1
  fg_posteriors := fun _ => 0
  bg_posteriors := fun _ => 0

/-- One row of the parallel vectors consumed by the segment pipeline of
`cthmm.cpp`: `classes[i]`, `meth[i]`, the genomic span of `cpgs[i]`, and
`post_scores[i]`. -/
structure Site where
  cls : ℤ
  meth : ℚ × ℚ
  startPos : ℕ
  stopPos : ℕ
  post : ℚ
deriving DecidableEq

/-- Model of a `GenomicRegion` produced by `build_domains`.  The constructor
`GenomicRegion(cpgs[i])` copies the opening position's span; `set_score`
records the CpG count, modelled by `Option.some` so that a domain whose
`set_score` was never called is visibly unscored (`none`). -/
structure Domain where
  startPos : ℕ
  stopPos : ℕ
  score : Option ℕ
deriving DecidableEq

/-- Scan of `get_domain_scores` over the rows, carrying `in_domain` and the
running `score`; a score is pushed only on a transition out of foreground, so
a trailing foreground run contributes no score.  (The source also increments
an `n_cpgs` counter that it never reads; it is omitted.) -/
def gdsAux : List Site → Bool → ℚ → List ℚ
  | [], _, _ => []
  | x :: rest, in_domain, score =>
    if x.cls = 1 then
      gdsAux rest true (score + (1 - x.meth.1 / (x.meth.1 + x.meth.2)))
    else if in_domain then score :: gdsAux rest false 0
    else gdsAux rest false score

/-- Function `get_domain_scores` of `cthmm.cpp`. -/
def get_domain_scores (sites : List Site) : List ℚ := gdsAux sites false 0

/-- Scan of `build_domains` over the rows, carrying `in_domain`, the domain
being built (pushed on the transition INTO foreground, i.e. emitted here when
it is closed or when the scan ends with it still open), `n_cpgs`, and
`prev_end`.  On a transition out of foreground the source mutates the trailing
pushed domain with `set_end(prev_end)` and `set_score(n_cpgs)`; after the
loop there is no closing of a still-open domain.  (The source also
accumulates a `score` of posterior values that it never reads; it is
omitted.) -/
def bdAux : List Site → Bool → Domain → ℕ → ℕ → List Domain
  | [], in_domain, cur, _, _ => if in_domain then [cur] else []
  | x :: rest, in_domain, cur, ncpgs, prev_end =>
    if x.cls = 1 then
      if in_domain then bdAux rest true cur (ncpgs + 1) x.stopPos
      else bdAux rest true ⟨x.startPos, x.stopPos, none⟩ 1 x.stopPos
    else if in_domain then
      { cur with stopPos := prev_end, score := some ncpgs } ::
        bdAux rest false cur 0 x.stopPos
    else bdAux rest false cur 0 x.stopPos

/-- Function `build_domains` of `cthmm.cpp`. -/
def build_domains (sites : List Site) : List Domain :=
  bdAux sites false ⟨0, 0, none⟩ 0 0

/-- Final `in_domain` state of the scans: whether the last row (if any) is
labelled foreground. -/
def trailFg : List Site → Bool → Bool
  | [], ind => ind
  | x :: rest, _ => trailFg rest (decide (x.cls = 1))

/-- Function `assign_p_values` of `cthmm.cpp`: the p-value of an observed
score `s` is the count of null scores strictly greater than `s` (located by
`upper_bound` in the sorted null list) divided by `max(1, null sample
size)`. -/
def assign_p_values (random observed : List ℚ) : List ℚ :=
  observed.map fun s =>
    ((random.filter fun r => s < r).length : ℚ) /
      (if random.length = 0 then 1 else (random.length : ℚ))

/-- Concrete decoded input: two foreground positions with genomic spans
`[0, 1)` and `[5, 6)`. -/
def sites0 : List Site :=
  [⟨1, (1, 1), 0, 1, 1⟩, ⟨1, (1, 1), 5, 6, 1⟩]

/-- Ascending insertion used to model `std::sort(local.begin(), local.end())`
(ascending sort; on `ℚ` equal elements are indistinguishable, so any sorting
algorithm yields the same list). -/
def insertSorted (x : ℚ) : List ℚ → List ℚ
  | [] => [x]
  | y :: ys => if x ≤ y then x :: y :: ys else y :: insertSorted x ys

/-- Ascending sort of the p-value list. -/
def sortAsc (l : List ℚ) : List ℚ := l.foldr insertSorted []

/-- Condition under which the scan loop of `get_fdr_cutoff` advances past
index `i`: `i < local.size() - 1 && local[i+1] < fdr * (i+1) / local.size()`. -/
def contCond (l : List ℚ) (q : ℚ) (i : ℕ) : Prop :=
  i < l.length - 1 ∧ l.getD (i + 1) 0 < q * ((i + 1 : ℕ) : ℚ) / ((l.length : ℕ) : ℚ)

instance contCondDec (l : List ℚ) (q : ℚ) (i : ℕ) : Decidable (contCond l q i) :=
  inferInstanceAs (Decidable (_ ∧ _))

/-- Scan loop `for (; i < local.size() - 1 && local[i+1] < fdr*(i+1)/n; ++i);`
of `get_fdr_cutoff`, with fuel bounding the number of steps (the loop runs at
most `local.size()` times). -/
def fdrScanIdx (l : List ℚ) (q : ℚ) : ℕ → ℕ → ℕ
  | 0, i => i
  | fuel + 1, i =>
    if contCond l q i then fdrScanIdx l q fuel (i + 1) else i

/-- Function `get_fdr_cutoff` of `cthmm.cpp`: the `fdr <= 0` and `fdr > 1`
sentinels, then the ascending sort and the scan, returning `local[i]` at the
scan's final index. -/
def get_fdr_cutoff (scores : List ℚ) (fdr : ℚ) : ℚ :=
  if fdr ≤ 0 then dblMax
  else if 1 < fdr then dblMin
  else
    let l := sortAsc scores
    l.getD (fdrScanIdx l fdr l.length 0) 0

/-- Modelled from the spec: find the LARGEST 1-based index `k` such that
`p[k] < q * k / n` in the ascending-sorted p-value list, scanning `k`
downward from `n`. -/
def bhFind (l : List ℚ) (q : ℚ) : ℕ → Option ℕ
  | 0 => none
  | k + 1 =>
    if l.getD k 0 < q * ((k + 1 : ℕ) : ℚ) / ((l.length : ℕ) : ℚ) then some (k + 1)
    else bhFind l q k

/-- Modelled from the spec: the classic Benjamini-Hochberg step-up cutoff —
sort the p-values ascending and return `p[k*]` where `k*` is the largest
1-based index with `p[k*] < q * k* / n` (`none` when no index qualifies). -/
def bh_step_up (scores : List ℚ) (q : ℚ) : Option ℚ :=
  let l := sortAsc scores
  match bhFind l q l.length with
  | some k => some (l.getD (k - 1) 0)
  | none => none

/-- The `evidence` value of one candidate segment `[s, e)` computed in the
inner loop of `estimate_state_posterior`. -/
def evidence (c : Ctx) (N s e : ℕ) : ℚ :=
  entry c s * c.d (e - s) * c.F s e * bwF c N (N - e)

/-- Body of the inner loop of `estimate_state_posterior` at segment end `e`:
`accu_evidence = log_sum_log(accu_evidence, evidence)` then
`fg_evidence[e - 1] = log_sum_log(fg_evidence[e - 1], accu_evidence)`. -/
def fgStep (c : Ctx) (N s : ℕ) (st : ℚ × (ℕ → ℚ)) (e : ℕ) : ℚ × (ℕ → ℚ) :=
  (st.1 + evidence c N s e,
   fun i =>
     if i = e - 1 then st.2 (e - 1) + (st.1 + evidence c N s e) else st.2 i)

/-- Inner loop of `estimate_state_posterior` for segment start `s`, iterating
`e` DOWN from `s + k` to `s + 1` (the source runs
`for (e = min(s + MAX_LEN, end); e > s; --e)`, so it is entered with
`k = min(s + MAX_LEN, end) - s`), threading `(accu_evidence, fg_evidence)`. -/
def fgInnerLoop (c : Ctx) (N s : ℕ) : ℕ → ℚ × (ℕ → ℚ) → ℚ × (ℕ → ℚ)
  | 0, st => st
  | k + 1, st => fgInnerLoop c N s k (fgStep c N s st (s + k + 1))

/-- Body of the outer loop of `estimate_state_posterior` at segment start
`s`: run the inner foreground loop with a fresh zero accumulator, then write
`bg_evidence[s] = forward[s].second + backward[s].second`. -/
def evStep (c : Ctx) (N : ℕ) (arrs : (ℕ → ℚ) × (ℕ → ℚ)) (s : ℕ) :
    (ℕ → ℚ) × (ℕ → ℚ) :=
  ((fgInnerLoop c N s (min (s + c.M) N - s) (0, arrs.1)).2,
   fun i => if i = s then bgF c s * bwB c N (N - 1 - s) else arrs.2 i)

/-- The evidence-accumulation loops of `estimate_state_posterior`, verbatim:
both evidence arrays start zero-filled and the outer loop visits every
`s ∈ [0, N)` in order.  `fg_evidence_eq_loop` and `bg_evidence_eq_loop`
below prove that these loops compute `fg_evidence` and `bg_evidence`. -/
def evLoop (c : Ctx) (N : ℕ) : (ℕ → ℚ) × (ℕ → ℚ) :=
  (List.range N).foldl (evStep c N) (fun _ => 0, fun _ => 0)

/-- Entries of the forward table at positions the fill loop has passed are
stable under further filling. -/
theorem fwdT_stable (c : Ctx) : ∀ k i, i ≤ k → fwdT c k i = fwdT c i i := by
  intro k
  induction k with
  | zero => intro i hi; interval_cases i; rfl
  | succ k ih =>
    intro i hi
    rcases Nat.lt_or_ge i (k + 1) with h | h
    · have h1 : i ≤ k := Nat.lt_succ_iff.mp h
      rw [show fwdT c (k + 1) i = fwdT c k i by simp [fwdT, h1], ih i h1]
    · have : i = k + 1 := le_antisymm hi h
      rw [this]

theorem fgF_zero (c : Ctx) : fgF c 0 = c.sf * c.F 0 1 * c.d 1 := rfl

theorem bgF_zero (c : Ctx) : bgF c 0 = c.sb * c.G 0 1 := rfl

theorem fgF_succ (c : Ctx) (k : ℕ) :
    fgF c (k + 1) =
      ∑ j in fwdLenRange k c.M,
        (if j = k + 1 then c.sf else bgF c (k - j) * c.p) *
          c.F (k + 1 - j) (k + 2) * c.d (j + 1) := by
  rw [fgF, show fwdT c (k + 1) (k + 1) =
    (∑ j in fwdLenRange k c.M,
      (if j = k + 1 then c.sf else (fwdT c k (k - j)).2 * c.p) *
        c.F (k + 1 - j) (k + 2) * c.d (j + 1),
     ((fwdT c k k).1 + (fwdT c k k).2 * (1 - c.p)) * c.G (k + 1) (k + 2))
    by simp [fwdT]]
  show (∑ j in fwdLenRange k c.M,
      (if j = k + 1 then c.sf else (fwdT c k (k - j)).2 * c.p) *
        c.F (k + 1 - j) (k + 2) * c.d (j + 1)) = _
  exact Finset.sum_congr rfl fun j _ => by
    rw [fwdT_stable c k (k - j) (Nat.sub_le k j)]; rfl

theorem bgF_succ (c : Ctx) (k : ℕ) :
    bgF c (k + 1) = (fgF c k + bgF c k * (1 - c.p)) * c.G (k + 1) (k + 2) := by
  rw [bgF, show fwdT c (k + 1) (k + 1) =
    (∑ j in fwdLenRange k c.M,
      (if j = k + 1 then c.sf else (fwdT c k (k - j)).2 * c.p) *
        c.F (k + 1 - j) (k + 2) * c.d (j + 1),
     ((fwdT c k k).1 + (fwdT c k k).2 * (1 - c.p)) * c.G (k + 1) (k + 2))
    by simp [fwdT]]
  rfl

/-- Entries of the backward table at distances the fill loop has passed are
stable under further filling. -/
theorem bwT_stable (c : Ctx) (N : ℕ) : ∀ t u, u ≤ t → bwT c N t u = bwT c N u u := by
  intro t
  induction t with
  | zero => intro u hu; interval_cases u; rfl
  | succ t ih =>
    intro u hu
    rcases Nat.lt_or_ge u (t + 1) with h | h
    · have h1 : u ≤ t := Nat.lt_succ_iff.mp h
      rw [show bwT c N (t + 1) u = bwT c N t u by simp [bwT, h1], ih u h1]
    · have : u = t + 1 := le_antisymm hu h
      rw [this]

theorem bwF_zero (c : Ctx) (N : ℕ) : bwF c N 0 = c.ft := rfl

theorem bwB_zero (c : Ctx) (N : ℕ) : bwB c N 0 = c.bt := rfl

theorem bwF_succ (c : Ctx) (N t : ℕ) :
    bwF c N (t + 1) = c.G (N - 1 - t) (N - t) * bwB c N t := by
  rw [bwF, show bwT c N (t + 1) (t + 1) =
    (c.G (N - 1 - t) (N - t) * (bwT c N t t).2,
     (1 - c.p) * c.G (N - 1 - t) (N - t) * (bwT c N t t).2 +
       ∑ j in bwdLenRange t c.M,
         c.p * c.F (N - 1 - t) (N - t + j) * c.d (j + 1) * (bwT c N t (t - j)).1)
    by simp [bwT]]
  rfl

theorem bwB_succ (c : Ctx) (N t : ℕ) :
    bwB c N (t + 1) =
      (1 - c.p) * c.G (N - 1 - t) (N - t) * bwB c N t +
        ∑ j in bwdLenRange t c.M,
          c.p * c.F (N - 1 - t) (N - t + j) * c.d (j + 1) * bwF c N (t - j) := by
  rw [bwB, show bwT c N (t + 1) (t + 1) =
    (c.G (N - 1 - t) (N - t) * (bwT c N t t).2,
     (1 - c.p) * c.G (N - 1 - t) (N - t) * (bwT c N t t).2 +
       ∑ j in bwdLenRange t c.M,
         c.p * c.F (N - 1 - t) (N - t + j) * c.d (j + 1) * (bwT c N t (t - j)).1)
    by simp [bwT]]
  show _ + _ = _ + _
  rw [show (bwT c N t t).2 = bwB c N t from rfl]
  exact congrArg _ (Finset.sum_congr rfl fun j _ => by
    rw [bwT_stable c N t (t - j) (Nat.sub_le t j)]; rfl)

/-- Splitting off the bottom element of a sum over a closed interval. -/
theorem sum_Icc_split_bottom (a b : ℕ) (f : ℕ → ℚ) :
    (∑ x in Finset.Icc a b, f x) =
      (if a ≤ b then f a else 0) + ∑ x in Finset.Icc (a + 1) b, f x := by
  by_cases h : a ≤ b
  · rw [if_pos h, Nat.Icc_succ_left, ← Finset.Ioc_insert_left h,
      Finset.sum_insert (by simp)]
  · rw [if_neg h, Finset.Icc_eq_empty h, Finset.Icc_eq_empty (by omega)]
    simp

/-- Closed form of the forward foreground entry: the sum, over lengths
`l ≤ min (i + 1) MAX_LEN`, of entry weight times segment likelihood times
duration density for the segment `[i + 1 - l, i + 1)` ending at `i`. -/
theorem fgF_eq_sum (c : Ctx) (hM : 1 ≤ c.M) (i : ℕ) :
    fgF c i = ∑ l in Finset.Icc 1 (min (i + 1) c.M),
      entry c (i + 1 - l) * c.F (i + 1 - l) (i + 1) * c.d l := by
  cases i with
  | zero =>
    have h1 : min 1 c.M = 1 := by omega
    rw [fgF_zero, h1]
    simp [entry]
  | succ k =>
    rw [fgF_succ,
      show Finset.Icc 1 (min (k + 1 + 1) c.M) = Finset.Ico 1 (min (k + 2) c.M + 1) from
        (Nat.Ico_succ_right 1 _).symm,
      Finset.sum_Ico_eq_sum_range, Nat.add_sub_cancel]
    refine Finset.sum_congr rfl fun j hj => ?_
    have hj2 : j < min (k + 2) c.M := Finset.mem_range.mp hj
    rw [show k + 1 + 1 - (1 + j) = k + 1 - j from by omega,
      show (1 + j) = j + 1 from by omega]
    by_cases h : j = k + 1
    · subst h
      rw [if_pos rfl, show k + 1 - (k + 1) = 0 from by omega]
      simp [entry]
    · rw [if_neg h, entry, if_neg (by omega), show k + 1 - j - 1 = k - j from by omega]

/-- The segments contributing to the foreground evidence at `i` that end
exactly at `i` sum to `forward[i].first * backward[i].first`. -/
theorem fg_end_sum_eq (c : Ctx) (hM : 1 ≤ c.M) (N i : ℕ) (hiN : i + 1 ≤ N) :
    (∑ s in Finset.range (i + 1),
        if i + 1 ≤ min (s + c.M) N then
          entry c s * c.d (i + 1 - s) * c.F s (i + 1) * bwF c N (N - (i + 1))
        else 0) =
      fgF c i * bwF c N (N - 1 - i) := by
  rw [← Finset.sum_filter, fgF_eq_sum c hM i, Finset.sum_mul]
  refine (Finset.sum_nbij' (fun l => i + 1 - l) (fun s => i + 1 - s) ?_ ?_ ?_ ?_ ?_).symm
  · intro l hl
    simp only [Finset.mem_Icc, le_min_iff] at hl
    simp only [Finset.mem_filter, Finset.mem_range, le_min_iff]
    omega
  · intro s hs
    simp only [Finset.mem_filter, Finset.mem_range, le_min_iff] at hs
    simp only [Finset.mem_Icc, le_min_iff]
    omega
  · intro l hl
    simp only [Finset.mem_Icc, le_min_iff] at hl
    dsimp only
    omega
  · intro s hs
    simp only [Finset.mem_filter, Finset.mem_range, le_min_iff] at hs
    dsimp only
    omega
  · intro l hl
    simp only [Finset.mem_Icc, le_min_iff] at hl
    rw [show i + 1 - (i + 1 - l) = l from by omega,
      show N - (i + 1) = N - 1 - i from by omega]
    ring

/-- Decomposition of the foreground evidence at `i` into segments ending at
`i` and segments extending past `i`. -/
theorem fg_evidence_split (c : Ctx) (hM : 1 ≤ c.M) (N i : ℕ) (hiN : i + 1 ≤ N) :
    fg_evidence c N i = fgF c i * bwF c N (N - 1 - i) + fgEvPast c N i := by
  rw [fg_evidence]
  rw [show evEndRange c.M N i = fun s => Finset.Icc (i + 1) (min (s + c.M) N) from rfl]
  rw [Finset.sum_congr rfl fun s _ =>
    sum_Icc_split_bottom (i + 1) (min (s + c.M) N)
      (fun e => entry c s * c.d (e - s) * c.F s e * bwF c N (N - e))]
  rw [Finset.sum_add_distrib, fg_end_sum_eq c hM N i hiN]
  rfl

/-- Peeling the segments that start at `i + 1` off the foreground evidence at
`i + 1`: the remaining segments are exactly those that extend past `i`. -/
theorem fg_evidence_succ (c : Ctx) (N i : ℕ) :
    fg_evidence c N (i + 1) =
      fgEvPast c N i +
        ∑ e in Finset.Icc (i + 2) (min (i + 1 + c.M) N),
          entry c (i + 1) * c.d (e - (i + 1)) * c.F (i + 1) e * bwF c N (N - e) := by
  rw [fg_evidence, Finset.sum_range_succ]
  rfl

/-- The backward switch-to-foreground sum at position `i + 1`, weighted by the
forward background value at `i`, is the evidence of all segments starting at
`i + 1`. -/
theorem switch_sum_eq (c : Ctx) (N i : ℕ) (h : i + 2 ≤ N) :
    (bgF c i * ∑ j in bwdLenRange (N - 2 - i) c.M,
        c.p * c.F (i + 1) (i + 2 + j) * c.d (j + 1) * bwF c N (N - 2 - i - j)) =
      ∑ e in Finset.Icc (i + 2) (min (i + 1 + c.M) N),
        entry c (i + 1) * c.d (e - (i + 1)) * c.F (i + 1) e * bwF c N (N - e) := by
  rw [Finset.mul_sum]
  refine Finset.sum_nbij' (fun j => i + 2 + j) (fun e => e - (i + 2)) ?_ ?_ ?_ ?_ ?_
  · intro j hj
    simp only [bwdLenRange, Finset.mem_range, lt_min_iff] at hj
    simp only [Finset.mem_Icc, le_min_iff]
    omega
  · intro e he
    simp only [Finset.mem_Icc, le_min_iff] at he
    simp only [bwdLenRange, Finset.mem_range, lt_min_iff]
    omega
  · intro j hj
    dsimp only
    omega
  · intro e he
    simp only [Finset.mem_Icc, le_min_iff] at he
    dsimp only
    omega
  · intro j hj
    simp only [bwdLenRange, Finset.mem_range, lt_min_iff] at hj
    rw [show i + 2 + j - (i + 1) = j + 1 from by omega, entry, if_neg (by omega),
      show i + 1 - 1 = i from by omega, show N - (i + 2 + j) = N - 2 - i - j from by omega]
    ring

/-- One step of the cut invariant: the combined evidence is unchanged when the
cut between positions moves from `i` to `i + 1`. -/
theorem phi_step (c : Ctx) (hM : 1 ≤ c.M) (N i : ℕ) (h : i + 2 ≤ N) :
    fg_evidence c N i + bg_evidence c N i =
      fg_evidence c N (i + 1) + bg_evidence c N (i + 1) := by
  rw [fg_evidence_split c hM N i (by omega), fg_evidence_succ]
  simp only [bg_evidence]
  rw [show N - 1 - i = N - 2 - i + 1 from by omega, bwF_succ, bwB_succ,
    show N - 1 - (N - 2 - i) = i + 1 from by omega,
    show N - (N - 2 - i) = i + 2 from by omega,
    show N - 1 - (i + 1) = N - 2 - i from by omega,
    bgF_succ, ← switch_sum_eq c N i h]
  ring

/-- At the last position the combined evidence is the forward total. -/
theorem phi_top (c : Ctx) (hM : 1 ≤ c.M) (N : ℕ) (hN : 1 ≤ N) :
    fg_evidence c N (N - 1) + bg_evidence c N (N - 1) = fwdTotal c N := by
  rw [fg_evidence_split c hM N (N - 1) (by omega)]
  have h0 : fgEvPast c N (N - 1) = 0 := by
    rw [fgEvPast]
    refine Finset.sum_eq_zero fun s _ => ?_
    have hmin := min_le_right (s + c.M) N
    rw [Finset.Icc_eq_empty (by omega), Finset.sum_empty]
  rw [h0, bg_evidence, Nat.sub_self, bwF_zero, bwB_zero, fwdTotal]
  ring

/-- The first-position foreground evidence re-indexed by segment length. -/
theorem phi_bot_sum (c : Ctx) (N : ℕ) :
    (∑ e in Finset.Icc 1 (min (0 + c.M) N),
        entry c 0 * c.d (e - 0) * c.F 0 e * bwF c N (N - e)) =
      ∑ j in Finset.range (min N c.M),
        c.sf * c.F 0 (j + 1) * c.d (j + 1) * bwF c N (N - 1 - j) := by
  refine Finset.sum_nbij' (fun e => e - 1) (fun j => j + 1) ?_ ?_ ?_ ?_ ?_
  · intro e he
    simp only [Finset.mem_Icc, le_min_iff] at he
    simp only [Finset.mem_range, lt_min_iff]
    omega
  · intro j hj
    simp only [Finset.mem_range, lt_min_iff] at hj
    simp only [Finset.mem_Icc, le_min_iff]
    omega
  · intro e he
    simp only [Finset.mem_Icc, le_min_iff] at he
    dsimp only
    omega
  · intro j hj
    dsimp only
    omega
  · intro e he
    simp only [Finset.mem_Icc, le_min_iff] at he
    rw [show e - 1 + 1 = e from by omega, show N - 1 - (e - 1) = N - e from by omega,
      show e - 0 = e from by omega,
      show entry c 0 = c.sf from by simp [entry]]
    ring

/-- At the first position the combined evidence is the backward total. -/
theorem phi_bot (c : Ctx) (N : ℕ) (hN : 1 ≤ N) :
    fg_evidence c N 0 + bg_evidence c N 0 = bwdTotal c N := by
  rw [fg_evidence, bg_evidence, bwdTotal, bgF_zero, Finset.sum_range_one,
    show N - 1 - 0 = N - 1 from by omega,
    show evEndRange c.M N 0 0 = Finset.Icc 1 (min (0 + c.M) N) from rfl,
    phi_bot_sum c N]
  ring

/-- The cut invariant: at every position of the subsequence the combined
foreground and background evidence equals the forward total. -/
theorem phi_const (c : Ctx) (hM : 1 ≤ c.M) (N : ℕ) (hN : 1 ≤ N) :
    ∀ k i, i + k = N - 1 →
      fg_evidence c N i + bg_evidence c N i = fwdTotal c N := by
  intro k
  induction k with
  | zero =>
    intro i hi
    have : i = N - 1 := by omega
    subst this
    exact phi_top c hM N hN
  | succ k ih =>
    intro i hi
    rw [phi_step c hM N i (by omega)]
    exact ih (i + 1) (by omega)

/-- Exact agreement of the forward and backward recursions on any
subsequence. -/
theorem fwdTotal_eq_bwdTotal (c : Ctx) (hM : 1 ≤ c.M) (N : ℕ) (hN : 1 ≤ N) :
    fwdTotal c N = bwdTotal c N := by
  rw [← phi_const c hM N hN (N - 1) 0 (by omega), phi_bot c N hN]

/-- C2: for every subsequence `[s, e)` delimited by reset points, the total
likelihood returned by `forward_algorithm` equals the one returned by
`backward_algorithm` — in the exact arithmetic of the embedding they are
equal outright, hence in particular within relative tolerance `1e-10`: the
two recursions are two computations of the same quantity. -/
theorem forward_backward_agree (fgLL bgLL dur : ℕ → ℚ) (p sf sb ft bt : ℚ)
    (M s e : ℕ) (hM : 1 ≤ M) (hse : s < e) :
    forward_algorithm fgLL bgLL dur p sf sb ft bt M s e =
      backward_algorithm fgLL bgLL dur p sf sb ft bt M s e ∧
    |forward_algorithm fgLL bgLL dur p sf sb ft bt M s e -
        backward_algorithm fgLL bgLL dur p sf sb ft bt M s e| * 10 ^ 10 ≤
      |forward_algorithm fgLL bgLL dur p sf sb ft bt M s e| := by
  have h := fwdTotal_eq_bwdTotal (subCtx fgLL bgLL dur p sf sb ft bt M s) hM
    (e - s) (by omega)
  refine ⟨h, ?_⟩
  rw [forward_algorithm, backward_algorithm, h, sub_self, abs_zero, zero_mul]
  exact abs_nonneg _

/-- C3: after `estimate_state_posterior` runs, the posteriors at every
position are probabilities and their sum is `1` up to the asserted
tolerance `1e-6` (exactly `1` in exact arithmetic), whenever the combined
evidence at that position is positive (the log-space computation presumes
finite log-evidence, i.e. positive evidence). -/
theorem posteriors_sum_to_one (c : Ctx) (N i : ℕ)
    (h1 : 0 ≤ fg_evidence c N i) (h2 : 0 ≤ bg_evidence c N i)
    (h3 : 0 < fg_evidence c N i + bg_evidence c N i) :
    0 ≤ fg_posterior c N i ∧ fg_posterior c N i ≤ 1 ∧
    0 ≤ bg_posterior c N i ∧ bg_posterior c N i ≤ 1 ∧
    |fg_posterior c N i + bg_posterior c N i - 1| < 1 / 1000000 := by
  have hsum : fg_posterior c N i + bg_posterior c N i = 1 := by
    rw [fg_posterior, bg_posterior, div_add_div_same, div_self (ne_of_gt h3)]
  refine ⟨div_nonneg h1 h3.le, ?_, div_nonneg h2 h3.le, ?_, ?_⟩
  · rw [fg_posterior]
    exact div_le_one_of_le₀ (by linarith) h3.le
  · rw [bg_posterior]
    exact div_le_one_of_le₀ (by linarith) h3.le
  · rw [hsum, sub_self, abs_zero]
    norm_num

/-- Reindexing of the foreground evidence by explicit segment pairs. -/
theorem fg_evidence_eq_segments (c : Ctx) (N i : ℕ) (hiN : i < N) :
    fg_evidence c N i = fg_evidence_segments c N i := by
  rw [fg_evidence, fg_evidence_segments,
    show evEndRange c.M N i = fun s => Finset.Icc (i + 1) (min (s + c.M) N) from rfl,
    Finset.sum_sigma']
  refine Finset.sum_nbij' (fun x => (x.1, x.2 - x.1)) (fun x => ⟨x.1, x.1 + x.2⟩)
    ?_ ?_ ?_ ?_ ?_
  · intro x hx
    simp only [Finset.mem_sigma, Finset.mem_range, Finset.mem_Icc, le_min_iff] at hx
    simp only [Finset.mem_filter, Finset.mem_product, Finset.mem_range, Finset.mem_Icc]
    omega
  · intro x hx
    simp only [Finset.mem_filter, Finset.mem_product, Finset.mem_range,
      Finset.mem_Icc] at hx
    simp only [Finset.mem_sigma, Finset.mem_range, Finset.mem_Icc, le_min_iff]
    omega
  · intro x hx
    simp only [Finset.mem_sigma, Finset.mem_range, Finset.mem_Icc, le_min_iff] at hx
    dsimp only
    congr 1
    omega
  · intro x hx
    simp only [Finset.mem_filter, Finset.mem_product, Finset.mem_range,
      Finset.mem_Icc] at hx
    dsimp only
    congr 1
    omega
  · intro x hx
    simp only [Finset.mem_sigma, Finset.mem_range, Finset.mem_Icc, le_min_iff] at hx
    dsimp only
    rw [show x.1 + (x.2 - x.1) = x.2 from by omega]

/-- C8: in the forward pass, the backward pass and the posterior estimator,
every candidate foreground segment scored by an inner segment-length loop has
length `l` with `1 ≤ l ≤ MAX_LEN` and its span `[beginning, ending)` lies
within the current subsequence `[0, N)` (relative coordinates): no span
longer than MAX_LEN is ever scored as a single foreground segment. -/
theorem max_len_bound (M N : ℕ) :
    (∀ k j, k + 2 ≤ N → j ∈ fwdLenRange k M →
      1 ≤ j + 1 ∧ j + 1 ≤ M ∧ (k + 1 - j) + (j + 1) = k + 2 ∧ k + 2 ≤ N) ∧
    (∀ t j, t + 2 ≤ N → j ∈ bwdLenRange t M →
      1 ≤ j + 1 ∧ j + 1 ≤ M ∧ (N - 1 - t) + (j + 1) = N - t + j ∧
        N - t + j ≤ N ∧ 1 ≤ N - 1 - t) ∧
    (∀ s i e, s ≤ i → e ∈ evEndRange M N i s →
      1 ≤ e - s ∧ e - s ≤ M ∧ s + (e - s) = e ∧ e ≤ N) := by
  refine ⟨?_, ?_, ?_⟩
  · intro k j hk hj
    simp only [fwdLenRange, Finset.mem_range, lt_min_iff] at hj
    omega
  · intro t j ht hj
    simp only [bwdLenRange, Finset.mem_range, lt_min_iff] at hj
    omega
  · intro s i e hsi he
    simp only [evEndRange, Finset.mem_Icc, le_min_iff] at he
    omega

theorem cEx_fg_eval : fg_evidence cEx 2 0 = 2 := by
  rw [fg_evidence, Finset.sum_range_one,
    show evEndRange cEx.M 2 0 0 = ({1, 2} : Finset ℕ) from by decide,
    Finset.sum_insert (by decide), Finset.sum_singleton]
  norm_num [cEx, entry, bwF, bwT]

theorem cEx_bg_eval : bg_evidence cEx 2 0 = 1 := by
  rw [bg_evidence]
  norm_num [bgF, fwdT, bwB, bwT, bwF, bwdLenRange, cEx, Finset.sum_range_one]

theorem cEx_last_pos_eval : fg_evidence_last_pos cEx 2 0 = 1 := by
  rw [fg_evidence_last_pos,
    show Finset.Icc 1 (min (0 + 1) cEx.M) = ({1} : Finset ℕ) from by decide,
    Finset.sum_singleton]
  norm_num [cEx, entry, bwF, bwT]

/-- Witness for C2 at a concrete input. -/
theorem forward_backward_agree_witness :
    ((1 : ℕ) ≤ 2 ∧ 0 < 2) ∧
    (forward_algorithm (fun _ => 1) (fun _ => 1) (fun _ => 1) 1 1 1 1 1 2 0 2 =
        backward_algorithm (fun _ => 1) (fun _ => 1) (fun _ => 1) 1 1 1 1 1 2 0 2 ∧
      |forward_algorithm (fun _ => 1) (fun _ => 1) (fun _ => 1) 1 1 1 1 1 2 0 2 -
          backward_algorithm (fun _ => 1) (fun _ => 1) (fun _ => 1) 1 1 1 1 1 2 0 2| *
          10 ^ 10 ≤
        |forward_algorithm (fun _ => 1) (fun _ => 1) (fun _ => 1) 1 1 1 1 1 2 0 2|) :=
  ⟨⟨by decide, by decide⟩,
    forward_backward_agree (fun _ => 1) (fun _ => 1) (fun _ => 1) 1 1 1 1 1 2 0 2
      (by decide) (by decide)⟩

/-- Witness for C3 at a concrete input. -/
theorem posteriors_sum_to_one_witness :
    (0 ≤ fg_evidence cEx 2 0 ∧ 0 ≤ bg_evidence cEx 2 0 ∧
      0 < fg_evidence cEx 2 0 + bg_evidence cEx 2 0) ∧
    (0 ≤ fg_posterior cEx 2 0 ∧ fg_posterior cEx 2 0 ≤ 1 ∧
      0 ≤ bg_posterior cEx 2 0 ∧ bg_posterior cEx 2 0 ≤ 1 ∧
      |fg_posterior cEx 2 0 + bg_posterior cEx 2 0 - 1| < 1 / 1000000) := by
  have h1 : (0 : ℚ) ≤ fg_evidence cEx 2 0 := by rw [cEx_fg_eval]; decide
  have h2 : (0 : ℚ) ≤ bg_evidence cEx 2 0 := by rw [cEx_bg_eval]; decide
  have h3 : (0 : ℚ) < fg_evidence cEx 2 0 + bg_evidence cEx 2 0 := by
    rw [cEx_fg_eval, cEx_bg_eval]; norm_num
  exact ⟨⟨h1, h2, h3⟩, posteriors_sum_to_one cEx 2 0 h1 h2 h3⟩

/-- Witness for C8 at a concrete input. -/
theorem max_len_bound_witness :
    ((0 + 2 ≤ 2 ∧ 0 ∈ fwdLenRange 0 2) ∧
      (1 ≤ 0 + 1 ∧ 0 + 1 ≤ 2 ∧ (0 + 1 - 0) + (0 + 1) = 0 + 2 ∧ 0 + 2 ≤ 2)) ∧
    ((0 + 2 ≤ 2 ∧ 0 ∈ bwdLenRange 0 2) ∧
      (1 ≤ 0 + 1 ∧ 0 + 1 ≤ 2 ∧ (2 - 1 - 0) + (0 + 1) = 2 - 0 + 0 ∧
        2 - 0 + 0 ≤ 2 ∧ 1 ≤ 2 - 1 - 0)) ∧
    ((0 ≤ 0 ∧ 1 ∈ evEndRange 2 2 0 0) ∧
      (1 ≤ 1 - 0 ∧ 1 - 0 ≤ 2 ∧ 0 + (1 - 0) = 1 ∧ 1 ≤ 2)) :=
  ⟨⟨⟨by decide, by decide⟩, (max_len_bound 2 2).1 0 0 (by decide) (by decide)⟩,
    ⟨⟨by decide, by decide⟩, (max_len_bound 2 2).2.1 0 0 (by decide) (by decide)⟩,
    ⟨⟨by decide, by decide⟩, (max_len_bound 2 2).2.2 0 0 1 (by decide) (by decide)⟩⟩

theorem sameStartTerm_trans {a b c : HMM E D} (h1 : sameStartTerm a b)
    (h2 : sameStartTerm b c) : sameStartTerm a c :=
  ⟨h1.1.trans h2.1, h1.2.1.trans h2.2.1, h1.2.2.1.trans h2.2.2.1,
    h1.2.2.2.trans h2.2.2.2⟩

theorem update_observation_likelihood_start_term (caps : Caps E D)
    (obs : ℕ → ℚ × ℚ) (m : HMM E D) :
    sameStartTerm (update_observation_likelihood caps obs m) m := by
  simp [update_observation_likelihood, sameStartTerm]

theorem estimate_parameters_start_term (caps : Caps E D) (obs : ℕ → ℚ × ℚ)
    (resets : List ℕ) (m : HMM E D) :
    sameStartTerm (estimate_parameters caps obs resets m) m := by
  rw [estimate_parameters]
  split_ifs <;>
    simp [update_observation_likelihood, sameStartTerm]

theorem estimate_state_posterior_start_term (caps : Caps E D) (M : ℕ)
    (m : HMM E D) (s e : ℕ) :
    sameStartTerm (estimate_state_posterior caps M m s e) m := by
  simp [estimate_state_posterior, sameStartTerm]

theorem decode_fold_start_term (caps : Caps E D) (M : ℕ) (resets : List ℕ) :
    ∀ (l : List ℕ) (acc : HMM E D × ℚ),
      sameStartTerm (l.foldl (decode_step caps M resets) acc).1 acc.1 := by
  intro l
  induction l with
  | nil => intro acc; exact ⟨rfl, rfl, rfl, rfl⟩
  | cons x xs ih =>
    intro acc
    rw [List.foldl_cons]
    refine sameStartTerm_trans (ih (decode_step caps M resets acc x)) ?_
    exact estimate_state_posterior_start_term caps M acc.1 _ _

theorem single_iteration_start_term (caps : Caps E D) (obs : ℕ → ℚ × ℚ)
    (M : ℕ) (resets : List ℕ) (m : HMM E D) :
    sameStartTerm (single_iteration caps obs M resets m).1 m := by
  rw [single_iteration]
  exact sameStartTerm_trans
    (estimate_parameters_start_term caps obs resets _)
    (decode_fold_start_term caps M resets _ (m, 0))

theorem restore_parameters_start_term (caps : Caps E D) (obs : ℕ → ℚ × ℚ)
    (old mNew : HMM E D) :
    sameStartTerm (restore_parameters caps obs old mNew) mNew := by
  simp [restore_parameters, update_observation_likelihood, sameStartTerm]

theorem bwLoop_start_term (caps : Caps E D) (obs : ℕ → ℚ × ℚ) (M : ℕ)
    (resets : List ℕ) (tol : ℚ) :
    ∀ (n : ℕ) (st : HMM E D × ℚ),
      sameStartTerm (bwLoop caps obs M resets tol n st).1 st.1 := by
  intro n
  induction n with
  | zero => intro st; exact ⟨rfl, rfl, rfl, rfl⟩
  | succ n ih =>
    intro st
    rw [bwLoop]
    by_cases h : ((single_iteration caps obs M resets st.1).2 - st.2) /
        |(single_iteration caps obs M resets st.1).2| < tol
    · rw [if_pos h]
      exact sameStartTerm_trans
        (restore_parameters_start_term caps obs st.1 _)
        (single_iteration_start_term caps obs M resets st.1)
    · rw [if_neg h]
      exact sameStartTerm_trans (ih _)
        (single_iteration_start_term caps obs M resets st.1)

/-- C9: `set_parameters` unconditionally sets the start probabilities of both
states to `0.5` and both termination probabilities to `1e-10`
(multiplicatively `1/2` and `1/10^10`), regardless of its arguments, and no
subsequent operation — `estimate_parameters`, `single_iteration`,
`PosteriorDecoding` or `BaumWelchTraining` — ever modifies `lp_sf`, `lp_sb`,
`lp_ft` or `lp_bt`: the start and termination parameters are fixed constants
throughout training and decoding, never re-estimated. -/
theorem start_termination_probs_fixed (caps : Caps E D) (obs : ℕ → ℚ × ℚ)
    (M : ℕ) (resets : List ℕ) (tol : ℚ) :
    (∀ (m : HMM E D) (fe be : E) (fd bd : D),
      (set_parameters caps obs m fe be fd bd).lp_sf = 1 / 2 ∧
      (set_parameters caps obs m fe be fd bd).lp_sb = 1 / 2 ∧
      (set_parameters caps obs m fe be fd bd).lp_ft = 1 / 10 ^ 10 ∧
      (set_parameters caps obs m fe be fd bd).lp_bt = 1 / 10 ^ 10) ∧
    (∀ m : HMM E D, sameStartTerm (estimate_parameters caps obs resets m) m) ∧
    (∀ m : HMM E D, sameStartTerm (single_iteration caps obs M resets m).1 m) ∧
    (∀ m : HMM E D, sameStartTerm (PosteriorDecoding caps M resets m).1 m) ∧
    (∀ (maxItr : ℕ) (m : HMM E D),
      sameStartTerm (BaumWelchTraining caps obs M resets tol maxItr m).1 m) := by
  refine ⟨?_, ?_, ?_, ?_, ?_⟩
  · intro m fe be fd bd
    exact ⟨rfl, rfl, rfl, rfl⟩
  · exact estimate_parameters_start_term caps obs resets
  · exact single_iteration_start_term caps obs M resets
  · intro m
    exact decode_fold_start_term caps M resets _ (m, 0)
  · intro maxItr m
    exact bwLoop_start_term caps obs M resets tol maxItr (m, -dblMax)

/-- C1: when the EM trainer's convergence test fires (relative change
`(total - prev_total) / |total|` below the tolerance), the loop restores the
emission and duration parameters to their values from before the triggering
iteration — the converged-into iteration's refit is discarded — and returns
the previous iteration's total score; when the test instead fails at every
iteration of the budget, no rollback occurs: the result is the plain n-fold
iteration of `single_iteration`, keeping the last refit and the last score. -/
theorem trainer_rollback (caps : Caps E D) (obs : ℕ → ℚ × ℚ) (M : ℕ)
    (resets : List ℕ) (tol : ℚ) :
    (∀ (n : ℕ) (m : HMM E D) (prev : ℚ),
      ((single_iteration caps obs M resets m).2 - prev) /
          |(single_iteration caps obs M resets m).2| < tol →
      (bwLoop caps obs M resets tol (n + 1) (m, prev)).2 = prev ∧
      (bwLoop caps obs M resets tol (n + 1) (m, prev)).1.fg_emission =
        m.fg_emission ∧
      (bwLoop caps obs M resets tol (n + 1) (m, prev)).1.bg_emission =
        m.bg_emission ∧
      (bwLoop caps obs M resets tol (n + 1) (m, prev)).1.fg_duration =
        m.fg_duration ∧
      (bwLoop caps obs M resets tol (n + 1) (m, prev)).1.bg_duration =
        m.bg_duration) ∧
    (∀ (n : ℕ) (st : HMM E D × ℚ),
      noConvB caps obs M resets tol n st = true →
      bwLoop caps obs M resets tol n st = plainIter caps obs M resets n st) := by
  constructor
  · intro n m prev h
    have hb : bwLoop caps obs M resets tol (n + 1) (m, prev) =
        (restore_parameters caps obs m (single_iteration caps obs M resets m).1,
          prev) := by
      rw [bwLoop, if_pos h]
    rw [hb]
    refine ⟨rfl, ?_, ?_, ?_, ?_⟩ <;>
      simp [restore_parameters, update_observation_likelihood]
  · intro n
    induction n with
    | zero => intro st _; rfl
    | succ n ih =>
      intro st h
      simp only [noConvB, Bool.and_eq_true, Bool.not_eq_true',
        decide_eq_false_iff_not] at h
      rw [bwLoop, plainIter, if_neg h.1]
      exact ih _ h.2

theorem si0_score : (single_iteration caps0 obs0 1 res0 m0).2 = 2 := by
  norm_num [single_iteration, decode_step, res0, fwdTotal, fgF, bgF, fwdT, mkCtx,
    segment_likelihood, m0, caps0, List.range_succ]

/-- Witness for C1 at a concrete input: with a large tolerance the first
iteration converges and rolls back; with tolerance `-1` the test never fires
and the loop is the plain iteration. -/
theorem trainer_rollback_witness :
    (((single_iteration caps0 obs0 1 res0 m0).2 - 0) /
        |(single_iteration caps0 obs0 1 res0 m0).2| < 100 ∧
      ((bwLoop caps0 obs0 1 res0 100 1 (m0, 0)).2 = 0 ∧
        (bwLoop caps0 obs0 1 res0 100 1 (m0, 0)).1.fg_emission = m0.fg_emission ∧
        (bwLoop caps0 obs0 1 res0 100 1 (m0, 0)).1.bg_emission = m0.bg_emission ∧
        (bwLoop caps0 obs0 1 res0 100 1 (m0, 0)).1.fg_duration = m0.fg_duration ∧
        (bwLoop caps0 obs0 1 res0 100 1 (m0, 0)).1.bg_duration =
          m0.bg_duration)) ∧
    (noConvB caps0 obs0 1 res0 (-1) 1 (m0, 0) = true ∧
      bwLoop caps0 obs0 1 res0 (-1) 1 (m0, 0) =
        plainIter caps0 obs0 1 res0 1 (m0, 0)) := by
  have h1 : ((single_iteration caps0 obs0 1 res0 m0).2 - 0) /
      |(single_iteration caps0 obs0 1 res0 m0).2| < 100 := by
    rw [si0_score]
    simp only [Rat.sub_def, Rat.div_def, Rat.inv_def, Rat.mul_def,
      Rat.normalize_eq_mkRat, abs]
    decide
  have h2 : noConvB caps0 obs0 1 res0 (-1) 1 (m0, 0) = true := by
    simp only [noConvB]
    rw [show (single_iteration caps0 obs0 1 res0 (m0, (0 : ℚ)).1).2 = 2 from
      si0_score]
    simp only [Rat.sub_def, Rat.div_def, Rat.inv_def, Rat.mul_def,
      Rat.normalize_eq_mkRat, abs]
    decide
  exact ⟨⟨h1, (trainer_rollback caps0 obs0 1 res0 100).1 0 m0 0 h1⟩,
    ⟨h2, (trainer_rollback caps0 obs0 1 res0 (-1)).2 1 (m0, 0) h2⟩⟩

theorem gdsAux_length :
    ∀ (sites : List Site) (ind : Bool) (sc : ℚ),
      (gdsAux sites ind sc).length = (gdsAux sites ind 0).length := by
  intro sites
  induction sites with
  | nil => intro ind sc; rfl
  | cons x rest ih =>
    intro ind sc
    by_cases hx : x.cls = 1 <;> cases ind <;> simp [gdsAux, hx, ih]

theorem bdAux_length :
    ∀ (sites : List Site) (ind : Bool) (cur : Domain) (n pe : ℕ),
      (bdAux sites ind cur n pe).length =
        (gdsAux sites ind 0).length + (trailFg sites ind).toNat := by
  intro sites
  induction sites with
  | nil => intro ind cur n pe; cases ind <;> simp [bdAux, gdsAux, trailFg]
  | cons x rest ih =>
    intro ind cur n pe
    by_cases hx : x.cls = 1 <;> cases ind <;>
      simp [bdAux, gdsAux, trailFg, hx, ih, gdsAux_length rest]
    omega

theorem trailFg_eq_getLast :
    ∀ (sites : List Site) (h : sites ≠ []) (ind : Bool),
      trailFg sites ind = decide ((sites.getLast h).cls = 1) := by
  intro sites
  induction sites with
  | nil => intro h; exact absurd rfl h
  | cons x rest ih =>
    intro h ind
    cases rest with
    | nil => simp [trailFg, List.getLast]
    | cons y ys =>
      rw [show trailFg (x :: y :: ys) ind =
          trailFg (y :: ys) (decide (x.cls = 1)) from rfl,
        ih (by simp) (decide (x.cls = 1)),
        show (x :: y :: ys).getLast h = (y :: ys).getLast (by simp) from
          List.getLast_cons (by simp)]

/-- C10: for every decoded class sequence whose final position is labelled
foreground, `build_domains` appends a domain for the trailing run while
`get_domain_scores` appends no score for it, so the domain list is one longer
than the score list; the p-value list inherits the score list's length, and
the parallel indexing of the final filtering loop reads the p-value list out
of bounds at the last domain's index. -/
theorem trailing_domain_mismatch (sites : List Site) (h1 : sites ≠ [])
    (h2 : (sites.getLast h1).cls = 1) (random : List ℚ) :
    (build_domains sites).length = (get_domain_scores sites).length + 1 ∧
    (assign_p_values random (get_domain_scores sites)).length =
      (get_domain_scores sites).length ∧
    (assign_p_values random (get_domain_scores sites)).get?
      ((build_domains sites).length - 1) = none := by
  have hb : (build_domains sites).length =
      (get_domain_scores sites).length + 1 := by
    rw [build_domains, get_domain_scores, bdAux_length,
      trailFg_eq_getLast sites h1 false, h2]
    simp
  refine ⟨hb, List.length_map _ _, ?_⟩
  rw [List.get?_eq_none]
  simp only [assign_p_values, List.length_map, hb]
  omega

/-- C5 (refuting evaluation): on a decoded sequence whose last position is
foreground, `build_domains` returns the trailing domain UNCLOSED — its end is
still the opening position's end (`1`, not the final position's end `6`) and
no score was ever recorded (`none`) — contrary to the claimed explicit
closing at the final position's end. -/
theorem trailing_domain_left_open :
    build_domains sites0 = [{ startPos := 0, stopPos := 1, score := none }] ∧
    (build_domains sites0).map Domain.score = [none] ∧
    ((build_domains sites0).getD 0 ⟨0, 0, none⟩).stopPos ≠ 6 := by
  refine ⟨by decide, by decide, by decide⟩

/-- Witness for C10 at a concrete input. -/
theorem trailing_domain_mismatch_witness :
    (sites0 ≠ [] ∧ (sites0.getLast (by decide)).cls = 1) ∧
    ((build_domains sites0).length = (get_domain_scores sites0).length + 1 ∧
      (assign_p_values [] (get_domain_scores sites0)).length =
        (get_domain_scores sites0).length ∧
      (assign_p_values [] (get_domain_scores sites0)).get?
        ((build_domains sites0).length - 1) = none) :=
  ⟨⟨by decide, by decide⟩,
    trailing_domain_mismatch sites0 (by decide) (by decide) []⟩

/-- C6: `get_fdr_cutoff` returns the `std::numeric_limits<double>::max()`
sentinel for every target FDR `q ≤ 0` and the
`std::numeric_limits<double>::min()` sentinel for every target FDR `q > 1`,
independent of the score list. -/
theorem fdr_cutoff_sentinels (scores : List ℚ) (q : ℚ) :
    (q ≤ 0 → get_fdr_cutoff scores q = dblMax) ∧
    (1 < q → get_fdr_cutoff scores q = dblMin) := by
  constructor
  · intro h
    rw [get_fdr_cutoff, if_pos h]
  · intro h
    rw [get_fdr_cutoff, if_neg (by linarith), if_pos h]

/-- Witness for C6 at concrete inputs. -/
theorem fdr_cutoff_sentinels_witness :
    ((0 : ℚ) ≤ 0 ∧ get_fdr_cutoff [1, 2] 0 = dblMax) ∧
    ((1 : ℚ) < 2 ∧ get_fdr_cutoff [1, 2] 2 = dblMin) :=
  ⟨⟨by decide, (fdr_cutoff_sentinels [1, 2] 0).1 (by decide)⟩,
    ⟨by decide, (fdr_cutoff_sentinels [1, 2] 2).2 (by decide)⟩⟩

theorem insertSorted_length (x : ℚ) :
    ∀ l : List ℚ, (insertSorted x l).length = l.length + 1 := by
  intro l
  induction l with
  | nil => rfl
  | cons y ys ih =>
    rw [insertSorted]
    split_ifs <;> simp [ih]

theorem sortAsc_length (l : List ℚ) : (sortAsc l).length = l.length := by
  induction l with
  | nil => rfl
  | cons y ys ih =>
    rw [sortAsc, List.foldr_cons, insertSorted_length, ← sortAsc, ih]
    rfl

/-- The scan returns the least index at or after its starting point at which
the continue condition fails, given enough fuel. -/
theorem fdrScanIdx_spec (l : List ℚ) (q : ℚ) :
    ∀ (fuel i : ℕ), l.length ≤ fuel + i →
      (∀ j, i ≤ j → j < fdrScanIdx l q fuel i → contCond l q j) ∧
      ¬contCond l q (fdrScanIdx l q fuel i) ∧
      i ≤ fdrScanIdx l q fuel i := by
  intro fuel
  induction fuel with
  | zero =>
    intro i hi
    have h0 : fdrScanIdx l q 0 i = i := rfl
    rw [h0]
    refine ⟨fun j hj1 hj2 => absurd (lt_of_le_of_lt hj1 hj2) (lt_irrefl i),
      fun hc => ?_, le_refl i⟩
    have := hc.1
    omega
  | succ fuel ih =>
    intro i hi
    by_cases hc : contCond l q i
    · have hrec := ih (i + 1) (by omega)
      rw [show fdrScanIdx l q (fuel + 1) i = fdrScanIdx l q fuel (i + 1) from by
        rw [fdrScanIdx, if_pos hc]]
      refine ⟨fun j hj1 hj2 => ?_, hrec.2.1, by omega⟩
      rcases Nat.eq_or_lt_of_le hj1 with h | h
      · rw [← h]; exact hc
      · exact hrec.1 j h hj2
    · rw [show fdrScanIdx l q (fuel + 1) i = i from by rw [fdrScanIdx, if_neg hc]]
      exact ⟨fun j hj1 hj2 => absurd (lt_of_le_of_lt hj1 hj2) (lt_irrefl i),
        hc, le_refl i⟩

/-- C7 (amended): for a non-empty score list and `0 < q ≤ 1`,
`get_fdr_cutoff` sorts the p-values ascending and returns the element at the
LEAST index `r` at which the sequential continue condition fails (`r = n - 1`,
or the NEXT sorted p-value fails `p[r+1] < q * (r+1) / n`), i.e. it stops at
the first failure of the scan — which in general is not the largest index
satisfying the classic step-up bound `p[k] < q * k / n`. -/
theorem fdr_cutoff_scan_characterization (scores : List ℚ) (q : ℚ)
    (h1 : scores ≠ []) (h2 : 0 < q) (h3 : q ≤ 1) :
    ∃ r, get_fdr_cutoff scores q = (sortAsc scores).getD r 0 ∧
      (∀ j, j < r → contCond (sortAsc scores) q j) ∧
      ¬contCond (sortAsc scores) q r ∧
      r ≤ scores.length - 1 := by
  have hq0 : ¬ q ≤ 0 := by linarith
  have hq1 : ¬ (1 : ℚ) < q := by linarith
  rw [get_fdr_cutoff, if_neg hq0, if_neg hq1]
  have hspec := fdrScanIdx_spec (sortAsc scores) q (sortAsc scores).length 0
    (by omega)
  refine ⟨fdrScanIdx (sortAsc scores) q (sortAsc scores).length 0, rfl,
    fun j hj => hspec.1 j (Nat.zero_le j) hj, hspec.2.1, ?_⟩
  set r := fdrScanIdx (sortAsc scores) q (sortAsc scores).length 0 with hr
  rcases Nat.eq_zero_or_pos r with h0 | h0
  · have : scores.length ≠ 0 := fun h => h1 (List.eq_nil_of_length_eq_zero h)
    omega
  · have hcont := hspec.1 (r - 1) (Nat.zero_le _) (by omega)
    have := hcont.1
    rw [sortAsc_length] at this
    omega

theorem sortAsc_pair : sortAsc [9/10, 3/10] = [3/10, 9/10] := by
  norm_num [sortAsc, insertSorted]

/-- C7 (counterexample): on the score list `[9/10, 3/10]` with target FDR
`q = 1`, the code's sequential scan stops at index `0` (because the NEXT
p-value `9/10` fails `9/10 < 1 * 1/2`) and returns `3/10`, while the claimed
classic Benjamini-Hochberg step-up returns `p[2] = 9/10` (index `2` satisfies
`9/10 < 1 * 2/2`): the claim is false as stated. -/
theorem fdr_cutoff_not_bh_step_up :
    get_fdr_cutoff [9/10, 3/10] 1 = 3/10 ∧
    bh_step_up [9/10, 3/10] 1 = some (9/10) ∧ (3/10 : ℚ) ≠ 9/10 := by
  have hscan : fdrScanIdx [3/10, 9/10] 1 2 0 = 0 := by
    norm_num [fdrScanIdx, contCond]
  refine ⟨?_, ?_, by norm_num⟩
  · rw [get_fdr_cutoff, if_neg (by norm_num), if_neg (by norm_num)]
    show (sortAsc [9/10, 3/10]).getD
      (fdrScanIdx (sortAsc [9/10, 3/10]) 1 (sortAsc [9/10, 3/10]).length 0) 0 = 3/10
    rw [sortAsc_pair]
    norm_num [hscan]
  · rw [bh_step_up]
    show (match bhFind (sortAsc [9/10, 3/10]) 1 (sortAsc [9/10, 3/10]).length with
      | some k => some ((sortAsc [9/10, 3/10]).getD (k - 1) 0)
      | none => none) = some (9/10)
    rw [sortAsc_pair]
    norm_num [bhFind]

/-- Witness for the amended C7 at a concrete input. -/
theorem fdr_cutoff_scan_characterization_witness :
    (([9/10, 3/10] : List ℚ) ≠ [] ∧ (0 : ℚ) < 1 ∧ (1 : ℚ) ≤ 1) ∧
    (∃ r, get_fdr_cutoff [9/10, 3/10] 1 = (sortAsc [9/10, 3/10]).getD r 0 ∧
      (∀ j, j < r → contCond (sortAsc [9/10, 3/10]) 1 j) ∧
      ¬contCond (sortAsc [9/10, 3/10]) 1 r ∧
      r ≤ ([9/10, 3/10] : List ℚ).length - 1) :=
  ⟨⟨by decide, by decide, by decide⟩,
    fdr_cutoff_scan_characterization [9/10, 3/10] 1 (by decide) (by decide)
      (by decide)⟩

/-- Closed form of the inner accumulator loop: starting from accumulator `a`
and array `arr`, processing ends `s + k` down to `s + 1` leaves the
accumulator at `a` plus the whole evidence sum, and adds to each cell
`i ∈ [s, s + k)` the initial accumulator plus the evidence of the segments
`[s, e)` with `e > i`. -/
theorem fgInnerLoop_spec (c : Ctx) (N s : ℕ) :
    ∀ (k : ℕ) (a : ℚ) (arr : ℕ → ℚ),
      fgInnerLoop c N s k (a, arr) =
        (a + ∑ e in Finset.Icc (s + 1) (s + k), evidence c N s e,
         fun i => arr i +
           if s ≤ i ∧ i < s + k then
             a + ∑ e in Finset.Icc (i + 1) (s + k), evidence c N s e
           else 0) := by
  intro k
  induction k with
  | zero =>
    intro a arr
    rw [fgInnerLoop]
    refine Prod.ext ?_ (funext fun i => ?_)
    · dsimp only
      rw [Finset.Icc_eq_empty (by omega), Finset.sum_empty, add_zero]
    · dsimp only
      rw [if_neg (by omega), add_zero]
  | succ k ih =>
    intro a arr
    rw [fgInnerLoop,
      show fgStep c N s (a, arr) (s + k + 1) =
        (a + evidence c N s (s + k + 1),
         fun i =>
           if i = s + k then arr (s + k) + (a + evidence c N s (s + k + 1))
           else arr i) from by
        rw [fgStep]
        refine Prod.ext rfl (funext fun i => ?_)
        dsimp only
        rw [show s + k + 1 - 1 = s + k from by omega],
      ih]
    refine Prod.ext ?_ (funext fun i => ?_)
    · dsimp only
      rw [show s + (k + 1) = s + k + 1 from by omega,
        Finset.sum_Icc_succ_top (by omega : s + 1 ≤ s + k + 1)]
      ring
    · dsimp only
      by_cases h1 : i = s + k
      · subst h1
        rw [if_pos rfl, if_neg (by omega : ¬(s ≤ s + k ∧ s + k < s + k)),
          add_zero, if_pos (by omega : s ≤ s + k ∧ s + k < s + (k + 1)),
          show s + (k + 1) = s + k + 1 from by omega,
          Finset.Icc_self, Finset.sum_singleton]
      · rw [if_neg h1]
        by_cases h2 : s ≤ i ∧ i < s + k
        · rw [if_pos h2, if_pos (by omega : s ≤ i ∧ i < s + (k + 1)),
            show s + (k + 1) = s + k + 1 from by omega,
            Finset.sum_Icc_succ_top (by omega : i + 1 ≤ s + k + 1)]
          ring
        · rw [if_neg h2, if_neg (by omega : ¬(s ≤ i ∧ i < s + (k + 1)))]

/-- Closed form of the foreground half of the outer loop. -/
theorem evFold_fst (c : Ctx) (N : ℕ) :
    ∀ (L : ℕ) (arrs : (ℕ → ℚ) × (ℕ → ℚ)) (i : ℕ),
      ((List.range L).foldl (evStep c N) arrs).1 i =
        arrs.1 i + ∑ s in Finset.range L,
          ∑ e in evEndRange c.M N i s,
            (if s ≤ i then evidence c N s e else 0) := by
  intro L
  induction L with
  | zero =>
    intro arrs i
    rw [List.range_zero, List.foldl_nil, Finset.sum_range_zero, add_zero]
  | succ L ih =>
    intro arrs i
    have hstep : (evStep c N ((List.range L).foldl (evStep c N) arrs) L).1 i =
        ((List.range L).foldl (evStep c N) arrs).1 i +
          ∑ e in evEndRange c.M N i L, (if L ≤ i then evidence c N L e else 0) := by
      rw [evStep]
      dsimp only
      rw [fgInnerLoop_spec]
      dsimp only
      by_cases h1 : L ≤ i ∧ i < L + (min (L + c.M) N - L)
      · rw [if_pos h1, zero_add]
        have hset : Finset.Icc (i + 1) (L + (min (L + c.M) N - L)) =
            evEndRange c.M N i L := by
          refine Finset.ext fun e => ?_
          simp only [evEndRange, Finset.mem_Icc]
          omega
        rw [hset]
        congr 1
        refine Finset.sum_congr rfl fun e he => ?_
        rw [if_pos h1.1]
      · rw [if_neg h1, add_zero]
        have hz : (∑ e in evEndRange c.M N i L,
            (if L ≤ i then evidence c N L e else 0)) = 0 := by
          by_cases h2 : L ≤ i
          · refine Finset.sum_eq_zero fun e he => ?_
            simp only [evEndRange, Finset.mem_Icc] at he
            rw [if_pos h2]
            exact absurd he (by omega)
          · exact Finset.sum_eq_zero fun e _ => if_neg h2
        rw [hz, add_zero]
    rw [List.range_succ, List.foldl_append, List.foldl_cons, List.foldl_nil,
      hstep, ih, Finset.sum_range_succ, add_assoc]

/-- Closed form of the background half of the outer loop. -/
theorem evFold_snd (c : Ctx) (N : ℕ) :
    ∀ (L : ℕ) (arrs : (ℕ → ℚ) × (ℕ → ℚ)) (i : ℕ),
      ((List.range L).foldl (evStep c N) arrs).2 i =
        if i < L then bgF c i * bwB c N (N - 1 - i) else arrs.2 i := by
  intro L
  induction L with
  | zero =>
    intro arrs i
    rw [List.range_zero, List.foldl_nil, if_neg (by omega)]
  | succ L ih =>
    intro arrs i
    rw [List.range_succ, List.foldl_append, List.foldl_cons, List.foldl_nil]
    show (if i = L then bgF c L * bwB c N (N - 1 - L) else _) = _
    by_cases h1 : i = L
    · subst h1
      rw [if_pos rfl, if_pos (by omega)]
    · rw [if_neg h1, ih]
      by_cases h2 : i < L
      · rw [if_pos h2, if_pos (by omega)]
      · rw [if_neg h2, if_neg (by omega)]

/-- The foreground evidence array filled by the source's accumulator loop
coincides with the closed-form `fg_evidence` at every cell. -/
theorem fg_evidence_eq_loop (c : Ctx) (N i : ℕ) :
    (evLoop c N).1 i = fg_evidence c N i := by
  rw [evLoop, evFold_fst, fg_evidence]
  show 0 + _ = _
  rw [zero_add]
  rcases Nat.lt_or_ge i N with hiN | hiN
  · rw [show (∑ s in Finset.range N, ∑ e in evEndRange c.M N i s,
        (if s ≤ i then evidence c N s e else 0)) =
        ∑ s in Finset.range N,
          (if s ≤ i then ∑ e in evEndRange c.M N i s, evidence c N s e else 0)
        from Finset.sum_congr rfl fun s _ => by
          by_cases h : s ≤ i
          · rw [if_pos h]
            exact Finset.sum_congr rfl fun e _ => if_pos h
          · rw [if_neg h]
            exact Finset.sum_eq_zero fun e _ => if_neg h,
      ← Finset.sum_filter,
      show (Finset.range N).filter (fun s => s ≤ i) = Finset.range (i + 1) from by
        refine Finset.ext fun s => ?_
        simp only [Finset.mem_filter, Finset.mem_range]
        omega]
    exact Finset.sum_congr rfl fun s _ => Finset.sum_congr rfl fun e _ => rfl
  · rw [Finset.sum_eq_zero, Finset.sum_eq_zero]
    · intro s hs
      refine Finset.sum_eq_zero fun e he => ?_
      simp only [evEndRange, Finset.mem_Icc, le_min_iff] at he
      omega
    · intro s hs
      refine Finset.sum_eq_zero fun e he => ?_
      simp only [evEndRange, Finset.mem_Icc, le_min_iff] at he
      omega

/-- The background evidence array filled by the source's loop coincides with
the closed-form `bg_evidence` at every cell of the subsequence. -/
theorem bg_evidence_eq_loop (c : Ctx) (N i : ℕ) (h : i < N) :
    (evLoop c N).2 i = bg_evidence c N i := by
  rw [evLoop, evFold_snd, if_pos h, bg_evidence]

/-- C4 (amended): the unnormalized foreground evidence accumulated by the
loops of `estimate_state_posterior` for position `i` is the evidence summed
over the foreground segments of length at most MAX_LEN that CONTAIN `i` (not
only those ending at `i`) — entry weight times duration density times segment
likelihood times the backward value at the segment's far end — and the
background evidence for `i` is `forward[i].second + backward[i].second`. -/
theorem fg_evidence_characterization (c : Ctx) (N i : ℕ) (hiN : i < N) :
    (evLoop c N).1 i = fg_evidence_segments c N i ∧
    (evLoop c N).2 i = bgF c i * bwB c N (N - 1 - i) := by
  rw [fg_evidence_eq_loop, bg_evidence_eq_loop c N i hiN]
  exact ⟨fg_evidence_eq_segments c N i hiN, rfl⟩

/-- C4 (counterexample): at `N = 2`, `MAX_LEN = 2`, position `0`, with all
likelihood and parameter values `1`, the evidence accumulated by
`estimate_state_posterior` for position `0` also contains the length-2
segment `[0, 2)` that merely CONTAINS position `0`, so it differs from the
claimed sum over segments having `0` as their last position (`2 ≠ 1`). -/
theorem fg_evidence_not_only_last_pos :
    (evLoop cEx 2).1 0 ≠ fg_evidence_last_pos cEx 2 0 := by
  rw [fg_evidence_eq_loop, cEx_fg_eval, cEx_last_pos_eval]
  decide

/-- Witness for the amended C4 at a concrete input. -/
theorem fg_evidence_characterization_witness :
    (0 : ℕ) < 2 ∧
    ((evLoop cEx 2).1 0 = fg_evidence_segments cEx 2 0 ∧
      (evLoop cEx 2).2 0 = bgF cEx 0 * bwB cEx 2 (2 - 1 - 0)) :=
  ⟨by decide, fg_evidence_characterization cEx 2 0 (by decide)⟩

theorem getLast?_cons_of_some {α : Type} {l : List α} {a d : α}
    (h : l.getLast? = some d) : (a :: l).getLast? = some d := by
  cases l with
  | nil => simp at h
  | cons b bs => rw [List.getLast?_cons_cons]; exact h

/-- In general: whenever the scan ends still inside a foreground run, the
last element of the produced domain list is the domain opened for that run,
with its score still unrecorded. -/
theorem bdAux_trailing_unscored :
    ∀ (sites : List Site) (ind : Bool) (cur : Domain) (n pe : ℕ),
      cur.score = none → trailFg sites ind = true →
      ∃ d, (bdAux sites ind cur n pe).getLast? = some d ∧ d.score = none := by
  intro sites
  induction sites with
  | nil =>
    intro ind cur n pe hcur htr
    cases ind with
    | false => simp [trailFg] at htr
    | true => exact ⟨cur, by simp [bdAux], hcur⟩
  | cons x rest ih =>
    intro ind cur n pe hcur htr
    rw [show trailFg (x :: rest) ind = trailFg rest (decide (x.cls = 1)) from
      rfl] at htr
    by_cases hx : x.cls = 1
    · rw [show (decide (x.cls = 1)) = true from by simp [hx]] at htr
      cases ind with
      | true =>
        rw [show bdAux (x :: rest) true cur n pe =
          bdAux rest true cur (n + 1) x.stopPos from by simp [bdAux, hx]]
        exact ih true cur (n + 1) x.stopPos hcur htr
      | false =>
        rw [show bdAux (x :: rest) false cur n pe =
          bdAux rest true ⟨x.startPos, x.stopPos, none⟩ 1 x.stopPos from by
            simp [bdAux, hx]]
        exact ih true ⟨x.startPos, x.stopPos, none⟩ 1 x.stopPos rfl htr
    · rw [show (decide (x.cls = 1)) = false from by simp [hx]] at htr
      cases ind with
      | true =>
        rw [show bdAux (x :: rest) true cur n pe =
          { cur with stopPos := pe, score := some n } ::
            bdAux rest false cur 0 x.stopPos from by simp [bdAux, hx]]
        obtain ⟨d, hdl, hds⟩ := ih false cur 0 x.stopPos hcur htr
        exact ⟨d, getLast?_cons_of_some hdl, hds⟩
      | false =>
        rw [show bdAux (x :: rest) false cur n pe =
          bdAux rest false cur 0 x.stopPos from by simp [bdAux, hx]]
        exact ih false cur 0 x.stopPos hcur htr

/-- In general: on EVERY decoded sequence whose last position is labelled
foreground, the last domain produced by `build_domains` has no recorded
score — the trailing open domain is never closed. -/
theorem build_domains_trailing_unscored (sites : List Site) (h1 : sites ≠ [])
    (h2 : (sites.getLast h1).cls = 1) :
    ∃ d, (build_domains sites).getLast? = some d ∧ d.score = none := by
  refine bdAux_trailing_unscored sites false ⟨0, 0, none⟩ 0 0 rfl ?_
  rw [trailFg_eq_getLast sites h1 false]
  simp [h2]

end MmHMM